import Mathlib

/-!
Verification of the Dispersion numerics module
(`src/Dispersion/Dispersion_Functions.py`).

The module manipulates pandas DataFrames and Python lists of floats.  We
embed a DataFrame as a record of a date index (dates as rationals), a list
of column names, and row-major cell data, where each cell is `Option ℚ`:
`none` models a missing value (NaN), which propagates through arithmetic
exactly as NaN does through Python float arithmetic.  Exact rational
arithmetic stands in for floating point; the spec's "up to floating
tolerance" statements become exact equalities.  The dispersion statistic
takes a square root, so it is embedded over `ℝ` with `Real.sqrt`.

Python lists are mutable and passed by reference; `return_portfolio_values`
appends to its `starting_values` argument, so its embedding returns the
output table together with the post-call state of that argument.  It raises
`IndexError` on an empty return table (it reads `returns.index[0]`), which
the embedding models by returning `none`.
-/

namespace Dispersion

/-- A pandas DataFrame: a date index, column names, and row-major numeric
cells.  A cell is `none` when the value is missing (NaN). -/
structure DF where
  index : List ℚ
  cols : List String
  data : List (List (Option ℚ))
deriving DecidableEq

/-- Cell multiplication with missing-value propagation: any NaN operand
yields NaN, as in Python float arithmetic. -/
def omul : Option ℚ → Option ℚ → Option ℚ
  | some a, some b => some (a * b)
  | _, _ => none

/-- One forward-fill cell step (pandas `fillna(method="pad")`): keep the
current cell when present, otherwise the last seen value. -/
def ffillStep (last cell : Option ℚ) : Option ℚ :=
  match cell with
  | some v => some v
  | none => last

/-- Forward-fill a row-major table, threading the vector of last seen
values per column. -/
def ffillRows (last : List (Option ℚ)) : List (List (Option ℚ)) → List (List (Option ℚ))
  | [] => []
  | r :: rs =>
    List.zipWith ffillStep last r :: ffillRows (List.zipWith ffillStep last r) rs

/-- Percent change of one row against the previous (already forward-filled)
row: cell = current/previous − 1, missing if either side is missing. -/
def divRow (prev cur : List (Option ℚ)) : List (Option ℚ) :=
  List.zipWith (fun p c =>
    match p, c with
    | some a, some b => some (b / a - 1)
    | _, _ => none) prev cur

/-- Pandas `DataFrame.pct_change()` with its default `fill_method="pad"`
(the default in every pandas version that still has `DataFrame.append`,
which the source uses): forward-fill, then divide each row by the previous
row and subtract 1; the first row comes out all missing. -/
def pctChange (df : DF) : DF :=
  let filled := ffillRows (List.replicate df.cols.length none) df.data
  { index := df.index, cols := df.cols,
    data := List.zipWith divRow (List.replicate df.cols.length none :: filled) filled }

/-- The source's column reindexing `cols[-1:] + cols[:-1]`: move the last
column to the front. -/
def moveLastColFirst (df : DF) : DF :=
  { index := df.index,
    cols := df.cols.getLast?.toList ++ df.cols.dropLast,
    data := df.data.map (fun r => r.getLast?.toList ++ r.dropLast) }

/-- `price_df_to_returns(price_df)`: percent-change the price table, record
the dates from the second row on as the `End` column, shift the returns up
one row dropping the final row, and move the `End` column to the front. -/
def price_df_to_returns (price_df : DF) : DF :=
  let returns := pctChange price_df
  let endDates := returns.index.tail
  let shifted : DF :=
    { index := returns.index.dropLast, cols := returns.cols, data := returns.data.tail }
  let withEnd : DF :=
    { index := shifted.index, cols := shifted.cols ++ ["End"],
      data := List.zipWith (fun r e => r ++ [some e]) shifted.data endDates }
  moveLastColFirst withEnd

/-- `apply_returns(starting_values, current_returns)`: pairwise product via
`zip` (truncating to the shorter list), with NaN propagation. -/
def apply_returns (starting_values current_returns : List (Option ℚ)) : List (Option ℚ) :=
  List.zipWith omul starting_values current_returns

/-- `portfolio_weights(portfolio_values)`: divide every element by the sum
of the list. -/
def portfolio_weights (portfolio_values : List ℚ) : List ℚ :=
  portfolio_values.map (fun x => x / portfolio_values.sum)

/-- Appending a dict built from `zip(cols, values)` to a DataFrame: columns
beyond the value list are filled with NaN, surplus values are dropped. -/
def padRow (w : Nat) (vals : List (Option ℚ)) : List (Option ℚ) :=
  vals.take w ++ List.replicate (w - vals.length) none

/-- The row loop of `return_portfolio_values`: for each return-table row,
grow the running values by `apply_returns(x, row[1:] + 1)` and emit
`[row[0]] + ending_values` padded to the column count. -/
def rpvLoop (w : Nat) (x : List (Option ℚ)) : List (List (Option ℚ)) → List (List (Option ℚ))
  | [] => []
  | row :: rest =>
    padRow w (row.headD none :: apply_returns x (row.tail.map (Option.map fun r => r + 1))) ::
      rpvLoop w (apply_returns x (row.tail.map (Option.map fun r => r + 1))) rest

/-- `return_portfolio_values(starting_values, returns)`.  The Python code
mutates its `starting_values` argument (`starting_values.append(returns.index[0])`),
so the embedding returns the output DataFrame together with the post-call
state of the caller's list; it returns `none` when the return table is
empty, where the code raises `IndexError` reading `returns.index[0]`. -/
def return_portfolio_values (starting_values : List ℚ) (returns : DF) :
    Option (DF × List ℚ) :=
  match returns.index with
  | [] => none
  | idx0 :: _ =>
    let mutated := starting_values ++ [idx0]
    let seeded := mutated.getLast?.toList ++ mutated.dropLast
    let row0 := padRow returns.cols.length (seeded.map some)
    let body := rpvLoop returns.cols.length ((seeded.drop 1).map some) returns.data
    some ({ index := (List.range (body.length + 1)).map (fun n => (n : ℚ)),
            cols := returns.cols, data := row0 :: body }, mutated)

/-- `price_df[price_df.index == d].values`: the data rows whose index
equals `d`, in table order. -/
def rowsAt (price_df : DF) (d : ℚ) : List (List (Option ℚ)) :=
  ((price_df.index.zip price_df.data).filter (fun p => decide (p.1 = d))).map Prod.snd

/-- Elementwise `(x / y) - 1` on cells, with NaN propagation. -/
def retCell (x y : Option ℚ) : Option ℚ :=
  match x, y with
  | some a, some b => some (a / b - 1)
  | _, _ => none

/-- `calculate_return(start_date, end_date, price_df)`: zip the rows
matching the end date with the rows matching the start date and form the
elementwise `(end_price / start_price) - 1` array for each pair. -/
def calculate_return (start_date end_date : ℚ) (price_df : DF) :
    List (List (Option ℚ)) :=
  List.zipWith (fun x y => List.zipWith retCell x y)
    (rowsAt price_df end_date) (rowsAt price_df start_date)

/-- `weighted_average_return(component_returns, weights)`: the sum of the
pairwise products over `zip` (truncating to the shorter list). -/
def weighted_average_return (component_returns weights : List ℚ) : ℚ :=
  ((component_returns.zip weights).map (fun p => p.1 * p.2)).sum

/-- The radicand of `dispersion_calc`: `Σ weightᵢ · (returnᵢ − portfolio_return)²`
over the zipped pairs, where the portfolio return defaults to the weighted
average when no override is given (`portfolio_return=None`). -/
def dispersion_sum (component_returns weights : List ℚ)
    (portfolio_return : Option ℚ) : ℚ :=
  let pr := portfolio_return.getD (weighted_average_return component_returns weights)
  ((component_returns.zip weights).map (fun p => p.2 * (p.1 - pr) ^ 2)).sum

/-- `dispersion_calc(component_returns, weights, portfolio_return=None)`:
the square root (`** 0.5`) of `dispersion_sum`. -/
noncomputable def dispersion_calc (component_returns weights : List ℚ)
    (portfolio_return : Option ℚ) : ℝ :=
  Real.sqrt ((dispersion_sum component_returns weights portfolio_return : ℚ) : ℝ)

/-! Generic list lemmas used throughout. -/

theorem getD_zipWith {α β γ : Type} (f : α → β → γ) (a : List α) (b : List β)
    (i : Nat) (da : α) (db : β) (dg : γ) (ha : i < a.length) (hb : i < b.length) :
    (List.zipWith f a b).getD i dg = f (a.getD i da) (b.getD i db) := by
  induction a generalizing b i with
  | nil => simp at ha
  | cons x xs ih =>
    cases b with
    | nil => simp at hb
    | cons y ys =>
      cases i with
      | zero => simp
      | succ j =>
        simp only [List.zipWith_cons_cons, List.getD_cons_succ]
        exact ih ys j (by simpa using ha) (by simpa using hb)

theorem getD_map {α β : Type} (f : α → β) (l : List α) (i : Nat) (d : α) (db : β)
    (h : i < l.length) : (l.map f).getD i db = f (l.getD i d) := by
  induction l generalizing i with
  | nil => simp at h
  | cons x xs ih =>
    cases i with
    | zero => simp
    | succ j =>
      simp only [List.map_cons, List.getD_cons_succ]
      exact ih j (by simpa using h)

theorem getD_map_tail {α : Type} (l : List (List α)) (i : Nat) :
    (l.map List.tail).getD i [] = (l.getD i []).tail := by
  induction l generalizing i with
  | nil => simp
  | cons x xs ih =>
    cases i with
    | zero => simp
    | succ j => simpa using ih j

theorem getD_tail {α : Type} (l : List α) (i : Nat) (d : α) :
    l.tail.getD i d = l.getD (i + 1) d := by
  cases l <;> simp

theorem getD_mem {α : Type} (l : List α) (i : Nat) (d : α) (h : i < l.length) :
    l.getD i d ∈ l := by
  rw [List.getD_eq_getElem l d h]
  exact List.getElem_mem h

theorem padRow_eq_self (w : Nat) (v : List (Option ℚ)) (h : v.length = w) :
    padRow w v = v := by
  subst h
  simp [padRow]

theorem concat_move_last {α : Type} (r : List α) (x : α) :
    (r ++ [x]).getLast?.toList ++ (r ++ [x]).dropLast = x :: r := by
  simp [List.getLast?_concat, List.dropLast_concat]

theorem list_sum_eq_zero_iff (l : List ℚ) (h : ∀ x ∈ l, 0 ≤ x) :
    l.sum = 0 ↔ ∀ x ∈ l, x = 0 := by
  induction l with
  | nil => simp
  | cons a t ih =>
    have ha : 0 ≤ a := h a (by simp)
    have ht : ∀ x ∈ t, 0 ≤ x := fun x hx => h x (by simp [hx])
    have hts : 0 ≤ t.sum := List.sum_nonneg ht
    rw [List.sum_cons]
    constructor
    · intro hs
      have h0 : a = 0 ∧ t.sum = 0 := (add_eq_zero_iff_of_nonneg ha hts).mp hs
      intro x hx
      rcases List.mem_cons.mp hx with rfl | hx
      · exact h0.1
      · exact ((ih ht).mp h0.2) x hx
    · intro hz
      have h0 : a = 0 := hz a (by simp)
      have h1 : t.sum = 0 := (ih ht).mpr (fun x hx => hz x (by simp [hx]))
      rw [h0, h1, add_zero]

/-! Lemmas about the forward fill and percent change of the embedding. -/

theorem ffillRows_length (last : List (Option ℚ)) (rows : List (List (Option ℚ))) :
    (ffillRows last rows).length = rows.length := by
  induction rows generalizing last with
  | nil => rfl
  | cons r rs ih => simp [ffillRows, ih]

theorem ffillRows_width (w : Nat) (last : List (Option ℚ)) (rows : List (List (Option ℚ)))
    (hl : last.length = w) (hw : ∀ r ∈ rows, r.length = w) :
    ∀ r ∈ ffillRows last rows, r.length = w := by
  induction rows generalizing last with
  | nil => intro s hs; simp [ffillRows] at hs
  | cons r rs ih =>
    intro s hs
    have h1 : (List.zipWith ffillStep last r).length = w := by
      simp [List.length_zipWith, hl, hw r (by simp)]
    rcases List.mem_cons.mp hs with rfl | hs
    · exact h1
    · exact ih _ h1 (fun u hu => hw u (by simp [hu])) s hs

theorem ffillRows_getD_succ (last : List (Option ℚ)) (rows : List (List (Option ℚ)))
    (i : Nat) (hi : i + 1 < rows.length) :
    (ffillRows last rows).getD (i + 1) [] =
      List.zipWith ffillStep ((ffillRows last rows).getD i []) (rows.getD (i + 1) []) := by
  induction rows generalizing last i with
  | nil => simp at hi
  | cons r rs ih =>
    cases i with
    | zero =>
      cases rs with
      | nil => simp at hi
      | cons s ss => simp [ffillRows]
    | succ j =>
      simp only [ffillRows, List.getD_cons_succ]
      exact ih _ j (by simpa using hi)

theorem zipWith_ffillStep_all_some (last : List (Option ℚ)) (r : List (Option ℚ))
    (hlen : last.length = r.length) (hr : ∀ c ∈ r, c ≠ none) :
    List.zipWith ffillStep last r = r := by
  induction r generalizing last with
  | nil => simp
  | cons c cs ih =>
    cases last with
    | nil => simp at hlen
    | cons a as =>
      have hc := hr c (by simp)
      cases c with
      | none => exact absurd rfl hc
      | some v =>
        simp only [List.zipWith_cons_cons, ffillStep]
        rw [ih as (by simpa using hlen) (fun u hu => hr u (by simp [hu]))]

theorem ffillRows_all_some (w : Nat) (last : List (Option ℚ)) (rows : List (List (Option ℚ)))
    (hl : last.length = w) (hw : ∀ r ∈ rows, r.length = w)
    (hs : ∀ r ∈ rows, ∀ c ∈ r, c ≠ none) :
    ffillRows last rows = rows := by
  induction rows generalizing last with
  | nil => rfl
  | cons r rs ih =>
    have h1 : List.zipWith ffillStep last r = r :=
      zipWith_ffillStep_all_some last r (by rw [hl, hw r (by simp)]) (hs r (by simp))
    simp only [ffillRows, h1]
    rw [ih r (hw r (by simp)) (fun u hu => hw u (by simp [hu])) (fun u hu => hs u (by simp [hu]))]

theorem pctChange_index (df : DF) : (pctChange df).index = df.index := rfl

theorem pctChange_cols (df : DF) : (pctChange df).cols = df.cols := rfl

theorem pctChange_data_length (df : DF) : (pctChange df).data.length = df.data.length := by
  simp only [pctChange, List.length_zipWith, List.length_cons, ffillRows_length]
  omega

theorem pctChange_data_getD_succ (df : DF) (i : Nat) (hi : i + 1 < df.data.length) :
    (pctChange df).data.getD (i + 1) [] =
      divRow ((ffillRows (List.replicate df.cols.length none) df.data).getD i [])
        ((ffillRows (List.replicate df.cols.length none) df.data).getD (i + 1) []) := by
  have hf : (ffillRows (List.replicate df.cols.length none) df.data).length = df.data.length :=
    ffillRows_length _ _
  simp only [pctChange]
  rw [getD_zipWith divRow _ _ (i + 1) [] [] [] (by simp [hf]; omega) (by rw [hf]; omega)]
  rw [List.getD_cons_succ]

/-! Structural lemmas about `price_df_to_returns`. -/

theorem price_df_to_returns_cols (df : DF) :
    (price_df_to_returns df).cols = "End" :: df.cols := by
  simp [price_df_to_returns, moveLastColFirst, pctChange, List.getLast?_concat,
    List.dropLast_concat]

theorem price_df_to_returns_index (df : DF) :
    (price_df_to_returns df).index = df.index.dropLast := rfl

theorem price_df_to_returns_data_length (df : DF) (h : df.data.length = df.index.length) :
    (price_df_to_returns df).data.length = df.index.length - 1 := by
  simp only [price_df_to_returns, moveLastColFirst, pctChange_index, List.length_map,
    List.length_zipWith, List.length_tail, pctChange_data_length]
  omega

theorem price_df_to_returns_data_getD (df : DF) (i : Nat)
    (h1 : i + 1 < df.data.length) (h2 : i + 1 < df.index.length) :
    (price_df_to_returns df).data.getD i [] =
      some (df.index.getD (i + 1) 0) :: (pctChange df).data.getD (i + 1) [] := by
  have hp : (pctChange df).data.length = df.data.length := pctChange_data_length df
  have hz : i < (List.zipWith (fun r e => r ++ [some e]) (pctChange df).data.tail
      df.index.tail).length := by
    simp only [List.length_zipWith, List.length_tail, hp]
    omega
  simp only [price_df_to_returns, moveLastColFirst, pctChange_index]
  rw [getD_map _ _ i [] [] hz]
  rw [getD_zipWith _ _ _ i [] 0 [] (by simp only [List.length_tail, hp]; omega)
    (by simp only [List.length_tail]; omega)]
  rw [concat_move_last, getD_tail, getD_tail]

/-! Concrete tables used by the example-level claims. -/

/-- Three-row, one-asset price table [100, 110, 99] at dates 0, 1, 2, the
spec's round-trip example. -/
def roundTripPrices : DF :=
  { index := [0, 1, 2], cols := ["A"], data := [[some 100], [some 110], [some 99]] }

/-- One-period return table: start date 0, End date 1, a single asset with
return 0.10. -/
def onePeriodReturns : DF :=
  { index := [0], cols := ["End", "A"], data := [[some 1, some (1/10)]] }

/-- One-row price table (a single date, so no period to compute). -/
def onePriceRow : DF := { index := [7], cols := ["A"], data := [[some 100]] }

/-- Price table with a missing interior price: [100, missing, 110] at
dates 0, 1, 2. -/
def missingPriceTable : DF :=
  { index := [0, 1, 2], cols := ["A"], data := [[some 100], [none], [some 110]] }

/-- The return table `price_df_to_returns` produces for `roundTripPrices`:
returns 0.10 and −0.10 with End dates 1 and 2. -/
def roundTripReturns : DF :=
  { index := [0, 1], cols := ["End", "A"],
    data := [[some 1, some (1/10)], [some 2, some (-1/10)]] }

/-- The value path `return_portfolio_values` produces from initial value
100 and `roundTripReturns`: values 100, 110, 99. -/
def roundTripValues : DF :=
  { index := [0, 1, 2], cols := ["End", "A"],
    data := [[some 0, some 100], [some 1, some 110], [some 2, some 99]] }

/-- C2: composing the conversions reproduces the price path.  For the 3-row
price table [100, 110, 99], `price_df_to_returns` yields the return table
with returns [0.10, -0.10] and End dates [1, 2], and `return_portfolio_values`
applied to initial value 100 and that table yields the value path
[100, 110, 99] (exactly, over rational arithmetic). -/
theorem price_returns_value_path_round_trip :
    price_df_to_returns roundTripPrices = roundTripReturns ∧
    return_portfolio_values [100] roundTripReturns = some (roundTripValues, [100, 0]) := by
  constructor
  · norm_num [price_df_to_returns, pctChange, ffillRows, ffillStep, divRow, moveLastColFirst,
      roundTripPrices, roundTripReturns, DF.mk.injEq]
  · norm_num [return_portfolio_values, rpvLoop, apply_returns, padRow, omul, DF.mk.injEq,
      roundTripReturns, roundTripValues, List.range_succ]

/-- C3 fails on the code: `return_portfolio_values` mutates its
caller-supplied `starting_values` list.  Called with the list [100] and a
one-period return table whose first start date is 0, the line
`starting_values.append(returns.index[0])` leaves the caller's list as
[100, 0] after the call, not [100]. -/
theorem return_portfolio_values_mutates_caller_list :
    (return_portfolio_values [100] onePeriodReturns).map (fun p => p.2) = some [100, 0] ∧
    [(100 : ℚ), 0] ≠ [(100 : ℚ)] := by
  constructor
  · norm_num [return_portfolio_values, rpvLoop, apply_returns, padRow, omul,
      onePeriodReturns, List.range_succ]
  · simp

/-- C9: a price table with fewer than two rows produces an empty return
table: no data rows and an empty index (no periods to compute). -/
theorem price_df_to_returns_short_input_empty (df : DF) (h : df.index.length < 2) :
    (price_df_to_returns df).data = [] ∧ (price_df_to_returns df).index = [] := by
  have hidx : df.index.tail = [] := by
    cases hI : df.index with
    | nil => rfl
    | cons a t =>
      cases t with
      | nil => rfl
      | cons b t' => rw [hI] at h; simp only [List.length_cons] at h; omega
  have hdrop : df.index.dropLast = [] := by
    cases hI : df.index with
    | nil => rfl
    | cons a t =>
      cases t with
      | nil => rfl
      | cons b t' => rw [hI] at h; simp only [List.length_cons] at h; omega
  constructor
  · simp only [price_df_to_returns, moveLastColFirst, pctChange_index, hidx,
      List.zipWith_nil_right, List.map_nil]
  · rw [price_df_to_returns_index, hdrop]

/-- Witness for C9 at the one-row table. -/
theorem price_df_to_returns_short_input_empty_witness :
    (price_df_to_returns onePriceRow).data = [] ∧
    (price_df_to_returns onePriceRow).index = [] :=
  price_df_to_returns_short_input_empty onePriceRow (by decide)

/-- C7: for positive position values with nonzero sum, `portfolio_weights`
keeps the length, divides each element by the total, and the outputs sum
to 1 (exactly, over rational arithmetic). -/
theorem portfolio_weights_normalized (l : List ℚ) (h1 : ∀ x ∈ l, 0 < x)
    (h2 : l.sum ≠ 0) :
    (portfolio_weights l).length = l.length ∧
    (∀ i, i < l.length → (portfolio_weights l).getD i 0 = l.getD i 0 / l.sum) ∧
    (portfolio_weights l).sum = 1 := by
  refine ⟨by simp [portfolio_weights], fun i hi => ?_, ?_⟩
  · exact getD_map _ l i 0 0 hi
  · have hs : (portfolio_weights l).sum = l.sum * l.sum⁻¹ := by
      simp only [portfolio_weights, div_eq_mul_inv]
      rw [List.sum_map_mul_right l (fun x => x) l.sum⁻¹]
      simp
    rw [hs, mul_inv_cancel₀ h2]

/-- Witness for C7 at the input [1, 2, 3]. -/
theorem portfolio_weights_normalized_witness :
    (portfolio_weights [1, 2, 3]).length = ([1, 2, 3] : List ℚ).length ∧
    (∀ i, i < ([1, 2, 3] : List ℚ).length →
      (portfolio_weights [1, 2, 3]).getD i 0 =
        ([1, 2, 3] : List ℚ).getD i 0 / ([1, 2, 3] : List ℚ).sum) ∧
    (portfolio_weights [1, 2, 3]).sum = 1 :=
  portfolio_weights_normalized [1, 2, 3] (by norm_num) (by norm_num)

/-- C10: `portfolio_weights` is scale invariant: multiplying every position
value by a nonzero scalar leaves the weights unchanged (exactly, over
rational arithmetic). -/
theorem portfolio_weights_scale_invariant (c : ℚ) (l : List ℚ) (hc : c ≠ 0)
    (h2 : l.sum ≠ 0) :
    portfolio_weights (l.map (fun x => c * x)) = portfolio_weights l := by
  have hsum : (l.map (fun x => c * x)).sum = c * l.sum := by
    rw [List.sum_map_mul_left l (fun x => x) c]
    simp
  unfold portfolio_weights
  rw [hsum, List.map_map]
  refine List.map_congr_left (fun a _ => ?_)
  simp only [Function.comp]
  exact mul_div_mul_left a l.sum hc

/-- Witness for C10 at scalar 2 and input [1, 3]. -/
theorem portfolio_weights_scale_invariant_witness :
    portfolio_weights (([1, 3] : List ℚ).map (fun x => 2 * x)) = portfolio_weights [1, 3] :=
  portfolio_weights_scale_invariant 2 [1, 3] (by norm_num) (by norm_num)

/-- C6 is false as stated: for the price table [100, missing, 110], the
return cell derived from the missing price is 0 — pandas `pct_change`
forward-fills missing prices by default — not a propagated missing value. -/
theorem price_df_to_returns_missing_cell_is_zero :
    ((price_df_to_returns missingPriceTable).data.getD 0 []).getD 1 none = some 0 ∧
    ((price_df_to_returns missingPriceTable).data.getD 0 []).getD 1 none ≠ none := by
  have h : ((price_df_to_returns missingPriceTable).data.getD 0 []).getD 1 none = some 0 := by
    norm_num [price_df_to_returns, pctChange, ffillRows, ffillStep, divRow, moveLastColFirst,
      missingPriceTable]
  exact ⟨h, by rw [h]; exact Option.noConfusion⟩

/-- C4: for a price table with at least two rows, the return table has one
fewer row; its columns are `End` first, then the asset columns in source
order; its row index is the source dates without the last; and the `End`
cell of row i is the source date at position i+1. -/
theorem price_df_to_returns_shape (df : DF) (h2 : 2 ≤ df.index.length)
    (hlen : df.data.length = df.index.length) :
    (price_df_to_returns df).cols = "End" :: df.cols ∧
    (price_df_to_returns df).index = df.index.dropLast ∧
    (price_df_to_returns df).data.length = df.index.length - 1 ∧
    ∀ i, i < df.index.length - 1 →
      ((price_df_to_returns df).data.getD i []).headD none =
        some (df.index.getD (i + 1) 0) := by
  refine ⟨price_df_to_returns_cols df, price_df_to_returns_index df,
    price_df_to_returns_data_length df hlen, fun i hi => ?_⟩
  rw [price_df_to_returns_data_getD df i (by omega) (by omega)]
  rfl

/-- Witness for C4 at the three-row table [100, 110, 99]. -/
theorem price_df_to_returns_shape_witness :
    (price_df_to_returns roundTripPrices).cols = "End" :: roundTripPrices.cols ∧
    (price_df_to_returns roundTripPrices).index = roundTripPrices.index.dropLast ∧
    (price_df_to_returns roundTripPrices).data.length = roundTripPrices.index.length - 1 ∧
    ∀ i, i < roundTripPrices.index.length - 1 →
      ((price_df_to_returns roundTripPrices).data.getD i []).headD none =
        some (roundTripPrices.index.getD (i + 1) 0) :=
  price_df_to_returns_shape roundTripPrices (by decide) (by decide)

/-- C5 is false as stated: with component returns [3, 1] and weights
[1, −1], the weighted-average portfolio return is 2 and the dispersion is
exactly 0 (the radicand is 1·(3−2)² + (−1)·(1−2)² = 0), yet both components
differ from the portfolio return and have nonzero weight. -/
theorem dispersion_calc_zero_with_unequal_returns :
    dispersion_calc [3, 1] [1, -1] none = 0 ∧
    weighted_average_return [3, 1] [1, -1] = 2 ∧
    ((3 : ℚ) ≠ 2 ∧ (1 : ℚ) ≠ 0) ∧ ((1 : ℚ) ≠ 2 ∧ (-1 : ℚ) ≠ 0) := by
  have hs : dispersion_sum [3, 1] [1, -1] none = 0 := by
    norm_num [dispersion_sum, weighted_average_return]
  refine ⟨?_, by norm_num [weighted_average_return], by norm_num, by norm_num⟩
  show Real.sqrt ((dispersion_sum [3, 1] [1, -1] none : ℚ) : ℝ) = 0
  rw [hs]
  norm_num

/-- C5 amended: restricted to nonnegative weights (the code's zip pairing).
For nonnegative weights, the dispersion with no override is nonnegative,
and it is zero iff every zipped (return, weight) pair has zero weight or
its return equal to the weighted-average portfolio return. -/
theorem dispersion_calc_nonneg_and_zero_iff (component_returns weights : List ℚ)
    (hw : ∀ w ∈ weights, 0 ≤ w) :
    0 ≤ dispersion_calc component_returns weights none ∧
    (dispersion_calc component_returns weights none = 0 ↔
      ∀ p ∈ component_returns.zip weights,
        p.2 = 0 ∨ p.1 = weighted_average_return component_returns weights) := by
  have hsum : dispersion_sum component_returns weights none =
      ((component_returns.zip weights).map (fun p =>
        p.2 * (p.1 - weighted_average_return component_returns weights) ^ 2)).sum := by
    simp [dispersion_sum]
  have hterm : ∀ x ∈ (component_returns.zip weights).map (fun p =>
      p.2 * (p.1 - weighted_average_return component_returns weights) ^ 2), 0 ≤ x := by
    intro x hx
    obtain ⟨p, hp, rfl⟩ := List.mem_map.mp hx
    exact mul_nonneg (hw p.2 (List.of_mem_zip hp).2) (sq_nonneg _)
  have hS : 0 ≤ dispersion_sum component_returns weights none := by
    rw [hsum]
    exact List.sum_nonneg hterm
  constructor
  · exact Real.sqrt_nonneg _
  · show Real.sqrt ((dispersion_sum component_returns weights none : ℚ) : ℝ) = 0 ↔ _
    rw [Real.sqrt_eq_zero']
    have hcast : ((dispersion_sum component_returns weights none : ℚ) : ℝ) ≤ 0 ↔
        dispersion_sum component_returns weights none = 0 := by
      rw [Rat.cast_nonpos]
      constructor
      · intro h
        exact le_antisymm h hS
      · intro h
        rw [h]
    rw [hcast, hsum, list_sum_eq_zero_iff _ hterm]
    constructor
    · intro h p hp
      have h0 := h _ (List.mem_map_of_mem _ hp)
      rcases mul_eq_zero.mp h0 with h1 | h1
      · exact Or.inl h1
      · exact Or.inr (sub_eq_zero.mp (pow_eq_zero_iff two_ne_zero |>.mp h1))
    · intro h x hx
      obtain ⟨p, hp, rfl⟩ := List.mem_map.mp hx
      rcases h p hp with h0 | h0
      · rw [h0, zero_mul]
      · rw [h0, sub_self, zero_pow two_ne_zero, mul_zero]

/-- Witness for the amended C5 at returns [1] and weights [1]. -/
theorem dispersion_calc_nonneg_and_zero_iff_witness :
    0 ≤ dispersion_calc [1] [1] none ∧
    (dispersion_calc [1] [1] none = 0 ↔
      ∀ p ∈ ([1] : List ℚ).zip ([1] : List ℚ),
        p.2 = 0 ∨ p.1 = weighted_average_return [1] [1]) :=
  dispersion_calc_nonneg_and_zero_iff [1] [1] (by norm_num)

/-- C6 amended: pandas `pct_change` forward-fills missing prices before
computing changes (its default `fill_method="pad"`), so a return cell whose
period-end source price is missing, while the forward fill has already seen
a nonzero price in that column, comes out 0 rather than missing. -/
theorem price_df_to_returns_ffilled_missing_is_zero (df : DF) (i k : Nat) (v : ℚ)
    (hwf : ∀ r ∈ df.data, r.length = df.cols.length)
    (hk : k < df.cols.length)
    (hi : i + 1 < df.data.length)
    (hidx : i + 1 < df.index.length)
    (hmiss : (df.data.getD (i + 1) []).getD k none = none)
    (hv : v ≠ 0)
    (hfill : ((ffillRows (List.replicate df.cols.length none) df.data).getD i []).getD k none
      = some v) :
    ((price_df_to_returns df).data.getD i []).getD (k + 1) none = some 0 := by
  have hflen : (ffillRows (List.replicate df.cols.length none) df.data).length =
      df.data.length := ffillRows_length _ _
  have hwidth : ∀ r ∈ ffillRows (List.replicate df.cols.length none) df.data,
      r.length = df.cols.length :=
    ffillRows_width df.cols.length _ _ (by simp) hwf
  have hwi : ((ffillRows (List.replicate df.cols.length none) df.data).getD i []).length =
      df.cols.length :=
    hwidth _ (getD_mem _ i [] (by omega))
  have hwi1 : ((ffillRows (List.replicate df.cols.length none) df.data).getD (i + 1) []).length =
      df.cols.length :=
    hwidth _ (getD_mem _ (i + 1) [] (by omega))
  have hrowi1 : (df.data.getD (i + 1) []).length = df.cols.length :=
    hwf _ (getD_mem df.data (i + 1) [] hi)
  have hcell : ((ffillRows (List.replicate df.cols.length none) df.data).getD (i + 1) []).getD
      k none = some v := by
    rw [ffillRows_getD_succ _ _ i hi]
    rw [getD_zipWith ffillStep _ _ k none none none (by omega) (by omega)]
    rw [hfill, hmiss]
    rfl
  rw [price_df_to_returns_data_getD df i hi hidx, List.getD_cons_succ,
    pctChange_data_getD_succ df i hi, divRow]
  rw [getD_zipWith _ _ _ k none none none (by omega) (by omega)]
  rw [hfill, hcell]
  show some (v / v - 1) = some 0
  rw [div_self hv, sub_self]

/-- Witness for the amended C6 at the table [100, missing, 110]. -/
theorem price_df_to_returns_ffilled_missing_is_zero_witness :
    ((price_df_to_returns missingPriceTable).data.getD 0 []).getD 1 none = some 0 :=
  price_df_to_returns_ffilled_missing_is_zero missingPriceTable 0 0 100
    (by decide) (by decide) (by decide) (by decide) (by decide) (by decide) (by decide)

/-- Shape and step structure of the row loop: with running values of length
m and rows of width m+1, the loop keeps the row count, emits rows of width
m+1, and each output row is the input row's first cell followed by
`apply_returns` of the previous value vector (the initial `x` for the first
row, the previous output row's tail afterwards) against the row's returns
plus one. -/
theorem rpvLoop_spec (m : Nat) (rows : List (List (Option ℚ))) (x : List (Option ℚ))
    (hx : x.length = m) (hw : ∀ r ∈ rows, r.length = m + 1) :
    (rpvLoop (m + 1) x rows).length = rows.length ∧
    (∀ row ∈ rpvLoop (m + 1) x rows, row.length = m + 1) ∧
    ∀ i, i < rows.length →
      (rpvLoop (m + 1) x rows).getD i [] =
        (rows.getD i []).headD none ::
          apply_returns ((x :: (rpvLoop (m + 1) x rows).map List.tail).getD i [])
            ((rows.getD i []).tail.map (Option.map fun r => r + 1)) := by
  induction rows generalizing x with
  | nil =>
    refine ⟨rfl, ?_, ?_⟩
    · intro row hrow
      simp [rpvLoop] at hrow
    · intro i hi
      simp at hi
  | cons row rest ih =>
    have hrow : row.length = m + 1 := hw row (by simp)
    have hend : (apply_returns x (row.tail.map (Option.map fun r => r + 1))).length = m := by
      simp [apply_returns, List.length_zipWith, hx, List.length_tail, hrow]
    have hpad : padRow (m + 1)
        (row.headD none :: apply_returns x (row.tail.map (Option.map fun r => r + 1))) =
        row.headD none :: apply_returns x (row.tail.map (Option.map fun r => r + 1)) :=
      padRow_eq_self _ _ (by rw [List.length_cons, hend])
    obtain ⟨ihlen, ihwidth, ihrow⟩ :=
      ih (apply_returns x (row.tail.map (Option.map fun r => r + 1))) hend
        (fun r hr => hw r (by simp [hr]))
    refine ⟨?_, ?_, ?_⟩
    · simp only [rpvLoop, List.length_cons]
      rw [ihlen]
    · intro s hs
      simp only [rpvLoop] at hs
      rcases List.mem_cons.mp hs with rfl | hs'
      · rw [hpad, List.length_cons, hend]
      · exact ihwidth s hs'
    · intro i hi
      cases i with
      | zero =>
        simp only [rpvLoop, List.getD_cons_zero]
        rw [hpad]
      | succ j =>
        simp only [rpvLoop, List.getD_cons_succ, List.map_cons]
        rw [hpad]
        simp only [List.tail_cons]
        exact ihrow j (by simpa using hi)

/-- C1: the value-path recurrence.  For a nonempty return table whose rows
all have width `cols.length`, with one more column (`End`) than there are
starting values, the produced table has exactly one more row than the
return table, its first row holds the initial values in the asset columns,
and whenever the value for asset k in output row i and the return for
asset k in table row i are both present, output row i+1 holds their
product value · (1 + return). -/
theorem return_portfolio_values_recurrence (sv : List ℚ) (returns : DF)
    (hne : returns.index ≠ [])
    (hwf : ∀ r ∈ returns.data, r.length = returns.cols.length)
    (hcols : returns.cols.length = sv.length + 1) :
    ∃ out mutated, return_portfolio_values sv returns = some (out, mutated) ∧
      out.data.length = returns.data.length + 1 ∧
      (∀ k, k < sv.length → (out.data.getD 0 []).getD (k + 1) none = some (sv.getD k 0)) ∧
      (∀ i, i < returns.data.length → ∀ k, k < sv.length → ∀ v r : ℚ,
        (out.data.getD i []).getD (k + 1) none = some v →
        (returns.data.getD i []).getD (k + 1) none = some r →
        (out.data.getD (i + 1) []).getD (k + 1) none = some (v * (1 + r))) := by
  rcases returns with ⟨idx, cols, data⟩
  cases idx with
  | nil => exact absurd rfl hne
  | cons idx0 rest =>
    have hcols' : cols.length = sv.length + 1 := hcols
    have hwf' : ∀ r ∈ data, r.length = sv.length + 1 := fun r hr => (hwf r hr).trans hcols'
    obtain ⟨hlen, hwidth, hrows⟩ :=
      rpvLoop_spec sv.length data (sv.map some) (by simp) hwf'
    have hshape : return_portfolio_values sv ⟨idx0 :: rest, cols, data⟩ =
        some ({ index := (List.range
                  ((rpvLoop cols.length (sv.map some) data).length + 1)).map (fun n => (n : ℚ)),
                cols := cols,
                data := (some idx0 :: sv.map some) ::
                  rpvLoop cols.length (sv.map some) data },
              sv ++ [idx0]) := by
      simp only [return_portfolio_values, concat_move_last, List.map_cons,
        List.drop_one, List.tail_cons]
      rw [padRow_eq_self cols.length (some idx0 :: sv.map some) (by simp [hcols'])]
    rw [hcols'] at hshape
    refine ⟨_, _, hshape, ?_, ?_, ?_⟩
    · show ((some idx0 :: sv.map some) :: rpvLoop (sv.length + 1) (sv.map some) data).length =
        data.length + 1
      simp [hlen]
    · intro k hk
      show (((some idx0 :: sv.map some) ::
          rpvLoop (sv.length + 1) (sv.map some) data).getD 0 []).getD (k + 1) none =
        some (sv.getD k 0)
      rw [List.getD_cons_zero, List.getD_cons_succ]
      exact getD_map some sv k 0 none hk
    · intro i hi k hk v r hv hr
      have hi' : i < data.length := hi
      have hbody := hrows i hi'
      have hprev : ((sv.map some) ::
          (rpvLoop (sv.length + 1) (sv.map some) data).map List.tail).getD i [] =
          (((some idx0 :: sv.map some) ::
            rpvLoop (sv.length + 1) (sv.map some) data).getD i []).tail := by
        cases i with
        | zero => simp
        | succ j =>
          simp only [List.getD_cons_succ]
          exact getD_map_tail _ j
      have hrowlen : (data.getD i []).length = sv.length + 1 :=
        hwf' _ (getD_mem data i [] hi')
      have hfullwidth : (((some idx0 :: sv.map some) ::
          rpvLoop (sv.length + 1) (sv.map some) data).getD i []).length = sv.length + 1 := by
        cases i with
        | zero => simp
        | succ j =>
          rw [List.getD_cons_succ]
          exact hwidth _ (getD_mem _ j [] (by rw [hlen]; omega))
      have hprevlen : (((sv.map some) ::
          (rpvLoop (sv.length + 1) (sv.map some) data).map List.tail).getD i []).length =
          sv.length := by
        rw [hprev, List.length_tail, hfullwidth]
        omega
      have hv' : (((some idx0 :: sv.map some) ::
          rpvLoop (sv.length + 1) (sv.map some) data).getD i []).getD (k + 1) none =
          some v := hv
      have hr' : (data.getD i []).getD (k + 1) none = some r := hr
      have hprevcell : ((((sv.map some) ::
          (rpvLoop (sv.length + 1) (sv.map some) data).map List.tail).getD i []).getD k none) =
          some v := by
        rw [hprev, getD_tail]
        exact hv'
      have hretcell : (((data.getD i []).tail.map (Option.map fun x => x + 1)).getD k none) =
          some (r + 1) := by
        rw [getD_map (Option.map fun x => x + 1) _ k none none
          (by rw [List.length_tail, hrowlen]; omega)]
        rw [getD_tail, hr']
        rfl
      show (((some idx0 :: sv.map some) ::
          rpvLoop (sv.length + 1) (sv.map some) data).getD (i + 1) []).getD (k + 1) none =
        some (v * (1 + r))
      rw [List.getD_cons_succ, hbody, List.getD_cons_succ, apply_returns]
      rw [getD_zipWith omul _ _ k none none none
        (by rw [hprevlen]; exact hk)
        (by rw [List.length_map, List.length_tail, hrowlen]; omega)]
      rw [hprevcell, hretcell]
      show some (v * (r + 1)) = some (v * (1 + r))
      rw [add_comm r 1]

/-- Witness for C1 at starting values [100] and the one-period return
table. -/
theorem return_portfolio_values_recurrence_witness :
    ∃ out mutated, return_portfolio_values [100] onePeriodReturns = some (out, mutated) ∧
      out.data.length = onePeriodReturns.data.length + 1 ∧
      (∀ k, k < ([100] : List ℚ).length →
        (out.data.getD 0 []).getD (k + 1) none = some (([100] : List ℚ).getD k 0)) ∧
      (∀ i, i < onePeriodReturns.data.length → ∀ k, k < ([100] : List ℚ).length →
        ∀ v r : ℚ,
        (out.data.getD i []).getD (k + 1) none = some v →
        (onePeriodReturns.data.getD i []).getD (k + 1) none = some r →
        (out.data.getD (i + 1) []).getD (k + 1) none = some (v * (1 + r))) :=
  return_portfolio_values_recurrence [100] onePeriodReturns
    (by simp [onePeriodReturns]) (by decide) (by decide)

/-- Conversion from `getD` at an in-range position to `get`. -/
theorem getD_eq_get {α : Type} (l : List α) (i : Nat) (d : α) (h : i < l.length) :
    l.getD i d = l.get ⟨i, h⟩ := by
  induction l generalizing i with
  | nil => simp at h
  | cons a t ih =>
    cases i with
    | zero => rfl
    | succ j => exact ih j (by simpa using h)

/-- A filter whose test accepts exactly the element at position j returns
the singleton of that element. -/
theorem filter_unique {α : Type} (q : α → Bool) (L : List α) (j : Nat) (d : α)
    (hj : j < L.length) (hq : q (L.getD j d) = true)
    (hother : ∀ i, i < L.length → i ≠ j → q (L.getD i d) = false) :
    L.filter q = [L.getD j d] := by
  induction L generalizing j with
  | nil => simp at hj
  | cons a t ih =>
    cases j with
    | zero =>
      have ha : q a = true := hq
      have ht : t.filter q = [] := by
        rw [List.filter_eq_nil_iff]
        intro x hx
        obtain ⟨⟨i, hi⟩, rfl⟩ := List.mem_iff_get.mp hx
        have h0 := hother (i + 1) (by simp only [List.length_cons]; omega) (by omega)
        rw [List.getD_cons_succ, getD_eq_get t i d hi] at h0
        simpa using h0
      simp [List.filter_cons, ha, ht]
    | succ j' =>
      have ha : q a = false := by
        have h0 := hother 0 (by simp) (by omega)
        simpa using h0
      have hrec := ih j' (by simpa using hj) (by simpa using hq)
        (fun i hi hne => by
          have h0 := hother (i + 1) (by simp only [List.length_cons]; omega) (by omega)
          simpa using h0)
      simp [List.filter_cons, ha, hrec]

/-- Telescoping product of successive ratios: the product over i < n of
1 + (v(i+1)/v(i) − 1) collapses to v(n)/v(0) when no v(i) vanishes. -/
theorem prod_ratio_telescope (v : Nat → ℚ) : ∀ n : Nat, (∀ i, i ≤ n → v i ≠ 0) →
    ((List.range n).map (fun i => 1 + (v (i + 1) / v i - 1))).prod = v n / v 0 := by
  intro n
  induction n with
  | zero =>
    intro h
    simp [div_self (h 0 (le_refl 0))]
  | succ k ih =>
    intro h
    rw [List.range_succ, List.map_append, List.prod_append,
      ih (fun i hi => h i (by omega))]
    simp only [List.map_cons, List.map_nil, List.prod_cons, List.prod_nil]
    have hk : v k ≠ 0 := h k (by omega)
    have h0 : v 0 ≠ 0 := h 0 (by omega)
    field_simp
    ring

/-- Pointwise description of a mapped list as a map over `List.range`. -/
theorem map_eq_range_map {α β : Type} (f : α → β) (g : Nat → β) (l : List α) (d : α)
    (h : ∀ i, i < l.length → f (l.getD i d) = g i) :
    l.map f = (List.range l.length).map g := by
  apply List.ext_get (by simp)
  intro i h1 h2
  simp only [List.get_map, List.get_range]
  rw [← getD_eq_get l i d (by simpa using h1)]
  exact h i (by simpa using h1)

/-- C8: compounding identity.  For a price table with at least two rows,
strictly increasing dates, well-formed rows and all prices present and
positive, `calculate_return` applied to the table's first and last dates
returns a single row whose entry for each asset equals the product over
all periods of (1 + per-period return) minus 1, the per-period returns
being exactly those produced by `price_df_to_returns` (all present). -/
theorem calculate_return_compounding_identity (df : DF)
    (h2 : 2 ≤ df.index.length)
    (hlen : df.data.length = df.index.length)
    (hwf : ∀ r ∈ df.data, r.length = df.cols.length)
    (hmono : df.index.Pairwise (· < ·))
    (hpos : ∀ r ∈ df.data, ∀ c ∈ r, ∃ w : ℚ, c = some w ∧ 0 < w) :
    ∃ row, calculate_return (df.index.getD 0 0) (df.index.getD (df.index.length - 1) 0) df
        = [row] ∧
      row.length = df.cols.length ∧
      ∀ k, k < df.cols.length →
        (∀ i, i < (price_df_to_returns df).data.length →
          ((price_df_to_returns df).data.getD i []).getD (k + 1) none ≠ none) ∧
        row.getD k none = some ((((price_df_to_returns df).data.map
          (fun r => 1 + ((r.getD (k + 1) none).getD 0))).prod) - 1) := by
  have hn : 0 < df.index.length := by omega
  have hn1 : df.index.length - 1 < df.index.length := by omega
  have hzip : df.index.zip df.data = List.zipWith Prod.mk df.index df.data := rfl
  have hL : (df.index.zip df.data).length = df.index.length := by
    rw [List.length_zip, hlen, min_self]
  have hinj : ∀ i j, i < df.index.length → j < df.index.length → i ≠ j →
      df.index.getD i 0 ≠ df.index.getD j 0 := by
    intro i j hi hj hne
    rw [getD_eq_get _ i _ hi, getD_eq_get _ j _ hj]
    rcases Nat.lt_or_ge i j with h | h
    · exact ne_of_lt (List.pairwise_iff_get.mp hmono ⟨i, hi⟩ ⟨j, hj⟩ (Fin.mk_lt_mk.mpr h))
    · have hji : j < i := by omega
      exact (ne_of_lt (List.pairwise_iff_get.mp hmono ⟨j, hj⟩ ⟨i, hi⟩
        (Fin.mk_lt_mk.mpr hji))).symm
  have hpair : ∀ j, j < df.index.length →
      (df.index.zip df.data).getD j (0, []) = (df.index.getD j 0, df.data.getD j []) := by
    intro j hj
    rw [hzip]
    exact getD_zipWith Prod.mk _ _ j 0 [] (0, []) hj (by rw [hlen]; exact hj)
  have hfirst : rowsAt df (df.index.getD 0 0) = [df.data.getD 0 []] := by
    have hq0 : (fun p : ℚ × List (Option ℚ) => decide (p.1 = df.index.getD 0 0))
        ((df.index.zip df.data).getD 0 (0, [])) = true := by
      rw [hpair 0 hn]
      simp
    have hother0 : ∀ i, i < (df.index.zip df.data).length → i ≠ 0 →
        (fun p : ℚ × List (Option ℚ) => decide (p.1 = df.index.getD 0 0))
          ((df.index.zip df.data).getD i (0, [])) = false := by
      intro i hi hne
      rw [hL] at hi
      rw [hpair i hi]
      exact decide_eq_false (hinj i 0 hi hn hne)
    rw [rowsAt, filter_unique _ _ 0 (0, []) (by rw [hL]; exact hn) hq0 hother0, hpair 0 hn]
    rfl
  have hlast : rowsAt df (df.index.getD (df.index.length - 1) 0) =
      [df.data.getD (df.index.length - 1) []] := by
    have hq1 : (fun p : ℚ × List (Option ℚ) =>
        decide (p.1 = df.index.getD (df.index.length - 1) 0))
        ((df.index.zip df.data).getD (df.index.length - 1) (0, [])) = true := by
      rw [hpair _ hn1]
      simp
    have hother1 : ∀ i, i < (df.index.zip df.data).length → i ≠ df.index.length - 1 →
        (fun p : ℚ × List (Option ℚ) =>
          decide (p.1 = df.index.getD (df.index.length - 1) 0))
          ((df.index.zip df.data).getD i (0, [])) = false := by
      intro i hi hne
      rw [hL] at hi
      rw [hpair i hi]
      exact decide_eq_false (hinj i (df.index.length - 1) hi hn1 hne)
    rw [rowsAt, filter_unique _ _ (df.index.length - 1) (0, []) (by rw [hL]; exact hn1)
      hq1 hother1, hpair _ hn1]
    rfl
  have hcalc : calculate_return (df.index.getD 0 0) (df.index.getD (df.index.length - 1) 0) df
      = [List.zipWith retCell (df.data.getD (df.index.length - 1) []) (df.data.getD 0 [])] := by
    simp only [calculate_return]
    rw [hfirst, hlast]
    rfl
  have hrowlen : ∀ j, j < df.data.length → (df.data.getD j []).length = df.cols.length :=
    fun j hj => hwf _ (getD_mem _ j [] hj)
  have hrowwidth : (List.zipWith retCell (df.data.getD (df.index.length - 1) [])
      (df.data.getD 0 [])).length = df.cols.length := by
    rw [List.length_zipWith, hrowlen _ (by rw [hlen]; exact hn1),
      hrowlen _ (by rw [hlen]; exact hn), min_self]
  refine ⟨_, hcalc, hrowwidth, ?_⟩
  intro k hk
  set v : Nat → ℚ := fun j => ((df.data.getD j []).getD k none).getD 0 with hv
  have hcell : ∀ j, j < df.data.length →
      (df.data.getD j []).getD k none = some (v j) ∧ 0 < v j := by
    intro j hj
    obtain ⟨w, hc, hw⟩ := hpos _ (getD_mem _ j [] hj) _
      (getD_mem _ k none (by rw [hrowlen j hj]; exact hk))
    simp only [hv]
    rw [hc]
    exact ⟨rfl, hw⟩
  have hvnz : ∀ j, j < df.data.length → v j ≠ 0 := fun j hj => ne_of_gt (hcell j hj).2
  have hsome : ∀ r ∈ df.data, ∀ c ∈ r, c ≠ none := by
    intro r hr c hc
    obtain ⟨w, hc', _⟩ := hpos r hr c hc
    rw [hc']
    simp
  have hfill : ffillRows (List.replicate df.cols.length none) df.data = df.data :=
    ffillRows_all_some df.cols.length _ _ (by simp) hwf hsome
  have hretlen : (price_df_to_returns df).data.length = df.index.length - 1 :=
    price_df_to_returns_data_length df hlen
  have hrcell : ∀ i, i < df.index.length - 1 →
      ((price_df_to_returns df).data.getD i []).getD (k + 1) none =
        some (v (i + 1) / v i - 1) := by
    intro i hi
    rw [price_df_to_returns_data_getD df i (by rw [hlen]; omega) (by omega),
      List.getD_cons_succ, pctChange_data_getD_succ df i (by rw [hlen]; omega), hfill,
      divRow,
      getD_zipWith _ _ _ k none none none
        (by rw [hrowlen i (by rw [hlen]; omega)]; exact hk)
        (by rw [hrowlen (i + 1) (by rw [hlen]; omega)]; exact hk),
      (hcell i (by rw [hlen]; omega)).1, (hcell (i + 1) (by rw [hlen]; omega)).1]
  refine ⟨?_, ?_⟩
  · intro i hi
    rw [hretlen] at hi
    rw [hrcell i hi]
    simp
  · have hmapeq : (price_df_to_returns df).data.map
        (fun r => 1 + ((r.getD (k + 1) none).getD 0)) =
        (List.range ((price_df_to_returns df).data.length)).map
          (fun i => 1 + (v (i + 1) / v i - 1)) := by
      apply map_eq_range_map _ _ _ []
      intro i hi
      rw [hrcell i (by rw [hretlen] at hi; exact hi)]
      rfl
    rw [hmapeq, hretlen,
      prod_ratio_telescope v (df.index.length - 1) (fun i hi => hvnz i (by rw [hlen]; omega)),
      getD_zipWith retCell _ _ k none none none
        (by rw [hrowlen _ (by rw [hlen]; exact hn1)]; exact hk)
        (by rw [hrowlen _ (by rw [hlen]; exact hn)]; exact hk),
      (hcell (df.index.length - 1) (by rw [hlen]; exact hn1)).1,
      (hcell 0 (by rw [hlen]; exact hn)).1]
    rfl

/-- Witness for C8 at the table [100, 110, 99]. -/
theorem calculate_return_compounding_identity_witness :
    ∃ row, calculate_return (roundTripPrices.index.getD 0 0)
        (roundTripPrices.index.getD (roundTripPrices.index.length - 1) 0) roundTripPrices
        = [row] ∧
      row.length = roundTripPrices.cols.length ∧
      ∀ k, k < roundTripPrices.cols.length →
        (∀ i, i < (price_df_to_returns roundTripPrices).data.length →
          ((price_df_to_returns roundTripPrices).data.getD i []).getD (k + 1) none ≠ none) ∧
        row.getD k none = some ((((price_df_to_returns roundTripPrices).data.map
          (fun r => 1 + ((r.getD (k + 1) none).getD 0))).prod) - 1) :=
  calculate_return_compounding_identity roundTripPrices (by decide) (by decide) (by decide)
    (by norm_num [roundTripPrices, List.pairwise_cons]) (by norm_num [roundTripPrices])

end Dispersion
